import Mathlib

set_option maxRecDepth 8000

namespace EdiosFM

/-! Verification of the safe-path resolution core and the file-operation
    handlers of the file-editor service.  JS strings are modelled as lists of
    characters; the functions below reproduce the behavior of the
    `path.posix` library calls used by the source (`join`, `normalize`,
    `relative`) at the granularity of path segments, together with the
    server's own utility functions and route handlers. -/

abbrev Chars := List Char

/-- Extend the first chunk of a chunk list with one character. -/
def consHead (c : Char) : List Chars → List Chars
  | [] => [[c]]
  | s :: ss => (c :: s) :: ss

/-- Model of JS `String.prototype.split` at the separator character: splits at
    every `'/'`, keeping empty chunks, so the result is always nonempty. -/
def splitSlash : Chars → List Chars
  | [] => [[]]
  | c :: cs => if c = '/' then [] :: splitSlash cs else consHead c (splitSlash cs)

/-- Inverse of `splitSlash`: interleave the separator between segments. -/
def joinSegs : List Chars → Chars
  | [] => []
  | [s] => s
  | s :: rest => s ++ '/' :: joinSegs rest

/-- Model of Node's `normalizeString` segment pass with `allowAboveRoot :=
    false` (the absolute-path case): empty and `.` segments are dropped and a
    `..` segment pops the previously kept segment, if any. -/
def normSegs : List Chars → List Chars → List Chars
  | [], acc => acc.reverse
  | s :: rest, acc =>
    if s = [] ∨ s = ['.'] then normSegs rest acc
    else if s = ['.', '.'] then normSegs rest acc.tail
    else normSegs rest (s :: acc)

/-- Model of Node's `normalizeString` segment pass with `allowAboveRoot :=
    true` (the relative-path case): leading `..` segments are kept. -/
def normSegsRel : List Chars → List Chars → List Chars
  | [], acc => acc.reverse
  | s :: rest, acc =>
    if s = [] ∨ s = ['.'] then normSegsRel rest acc
    else if s = ['.', '.'] then
      match acc with
      | [] => normSegsRel rest [['.', '.']]
      | t :: acc2 =>
        if t = ['.', '.'] then normSegsRel rest (['.', '.'] :: t :: acc2)
        else normSegsRel rest acc2
    else normSegsRel rest (s :: acc)

/-- Model of Node's `path.posix.normalize`: empty input becomes `.`, the
    segment pass depends on absoluteness, and a trailing separator of the
    input is restored on a nonempty result. -/
def normalizePath (p : Chars) : Chars :=
  match p with
  | [] => ['.']
  | c :: _ =>
    let isAbs := c = '/'
    let trailing := p.getLast? = some '/'
    let core := joinSegs ((if isAbs then normSegs else normSegsRel) (splitSlash p) [])
    if core = [] then
      if isAbs then ['/'] else if trailing then ['.', '/'] else ['.']
    else
      (if isAbs then ['/'] else []) ++ core ++ (if trailing then ['/'] else [])

/-- Model of Node's `path.posix.join` on two parts: drop empty parts, join the
    rest with a separator, normalize; an entirely empty join is `.`. -/
def joinParts (a b : Chars) : Chars :=
  if a = [] then (if b = [] then ['.'] else normalizePath b)
  else if b = [] then normalizePath a
  else normalizePath (a ++ '/' :: b)

/-- Length of the longest common prefix of two segment lists. -/
def commonLen : List Chars → List Chars → Nat
  | x :: xs, y :: ys => if x = y then commonLen xs ys + 1 else 0
  | _, _ => 0

/-- Model of Node's `path.posix.relative` on absolute arguments: both sides
    are resolved, equal paths give the empty string, and otherwise the result
    climbs out of the uncommon part of the source with `..` segments and
    descends into the uncommon part of the target. -/
def pathRelative (f t : Chars) : Chars :=
  let fsegs := normSegs (splitSlash f) []
  let tsegs := normSegs (splitSlash t) []
  if fsegs = tsegs then []
  else
    let c := commonLen fsegs tsegs
    joinSegs (List.replicate (fsegs.length - c) ['.', '.'] ++ tsegs.drop c)

/-- Model of the source's `getSafePath`: strip one leading separator, join the
    remainder onto the root, and fall back to the root itself whenever the
    joined path does not start with the root string. -/
def getSafePath (root userPath : Chars) : Chars :=
  let targetPath := if userPath.head? = some '/' then userPath.tail else userPath
  let fullPath := joinParts root targetPath
  if root.isPrefixOf fullPath then fullPath else root

/-- Model of the source's `getRelativePath`: prefix the root-relative form of
    the path with a separator and replace every backslash by a slash. -/
def getRelativePath (root absolutePath : Chars) : Chars :=
  '/' :: (pathRelative root absolutePath).map (fun c => if c = '\\' then '/' else c)

/-- String-level wrapper of `getSafePath`. -/
def getSafePathS (root userPath : String) : String :=
  ⟨getSafePath root.data userPath.data⟩

/-- String-level wrapper of `getRelativePath`. -/
def getRelativePathS (root absolutePath : String) : String :=
  ⟨getRelativePath root.data absolutePath.data⟩

/-- One leading separator stripped, as in the source's `substring(1)` step. -/
def stripLead (p : Chars) : Chars := if p.head? = some '/' then p.tail else p

/-- A well-formed path segment: nonempty, not a dot segment, no separator. -/
@[reducible] def validSeg (s : Chars) : Prop :=
  s ≠ [] ∧ s ≠ ['.'] ∧ s ≠ ['.', '.'] ∧ '/' ∉ s

/-- An absolute path assembled from segments, the shape `path.resolve`
    produces for the document root. -/
def rootStr (rs : List Chars) : Chars := '/' :: joinSegs rs

/-- Well-formedness of the document root: at least one segment, all valid. -/
@[reducible] def validRoot (rs : List Chars) : Prop := rs ≠ [] ∧ ∀ s ∈ rs, validSeg s

/-- Directory containment in the root boundary: the location is the root
    itself or lies strictly below it. -/
@[reducible] def inBoundary (root q : Chars) : Prop := q = root ∨ (root ++ ['/']) <+: q

/-- The user path contains no `..` segment. -/
@[reducible] def noDotDot (p : Chars) : Prop := ['.', '.'] ∉ splitSlash p

/-- An absolute path in normal form: separated segments after one leading
    separator, with an optional trailing separator. -/
def absStr (segs : List Chars) (trailing : Bool) : Chars :=
  '/' :: (joinSegs segs ++ (if trailing then ['/'] else []))

/-! The file-operation executor.  The backing store is an association list
    from absolute path strings to entries; the first binding for a key wins,
    and a write shadows older bindings. -/

/-- A filesystem entry: a regular file with text content, or a directory. -/
inductive FsNode where
  | file (content : Chars)
  | dir
  deriving DecidableEq

abbrev Fs := List (Chars × FsNode)

/-- Lookup of a path in the store (model of `fs.stat` / `fs.readFile`
    resolution: `none` plays the role of the thrown `ENOENT`). -/
def fsFind : Fs → Chars → Option FsNode
  | [], _ => none
  | (k, v) :: rest, p => if k = p then some v else fsFind rest p

/-- Model of a successful `fs.writeFile`: bind the path to the content. -/
def fsWrite (fs : Fs) (p content : Chars) : Fs := (p, FsNode.file content) :: fs

/-- JS falsiness of an optional string field: `!x` holds for an absent field
    and for the empty string. -/
def jsFalsy : Option String → Bool
  | none => true
  | some s => s = ""

/-- JS `x || dflt` for an optional string field. -/
def jsOr (x : Option String) (dflt : String) : String :=
  match x with
  | none => dflt
  | some s => if s = "" then dflt else s

inductive ReadResp where
  | clientError
  | ok (content : Chars)
  | backendError
  deriving DecidableEq

/-- Model of the `GET /api/file-content` handler shared by the local variant
    (src/unnamed/part_000) and the Vercel variant (src/api/server.js): the
    `directory` query defaults to `./`, is resolved through `getSafePath`, the
    file name is joined on, and the file is read. -/
def fileContent (root : Chars) (fs : Fs) (directory file : Option String) : ReadResp :=
  if jsFalsy file then ReadResp.clientError
  else
    let filePath := joinParts (getSafePath root (jsOr directory "./").data) (file.getD "").data
    match fsFind fs filePath with
    | some (FsNode.file c) => ReadResp.ok c
    | _ => ReadResp.backendError

inductive SaveResp where
  | clientError
  | saved
  deriving DecidableEq

/-- Model of the `POST /api/save-file` handler of the local variant
    (src/unnamed/part_000): the write goes through `getSafePath` with the
    request's directory. -/
def saveFileLocal (root : Chars) (fs : Fs) (file_name content directory : Option String) :
    Fs × SaveResp :=
  if jsFalsy file_name || content = none then (fs, SaveResp.clientError)
  else
    let filePath := joinParts (getSafePath root (jsOr directory "./").data) (file_name.getD "").data
    (fsWrite fs filePath (content.getD "").data, SaveResp.saved)

/-- Model of the `POST /api/save-file` handler of the Vercel variant
    (src/api/server.js): the write goes under `/tmp` regardless of the root
    and of any directory field. -/
def saveFileVercel (fs : Fs) (file_name content : Option String) : Fs × SaveResp :=
  if jsFalsy file_name || content = none then (fs, SaveResp.clientError)
  else
    let filePath := joinParts "/tmp/".data (file_name.getD "").data
    (fsWrite fs filePath (content.getD "").data, SaveResp.saved)

inductive DelResp where
  | clientError
  | deletedFolder
  | deletedFile
  | backendError
  deriving DecidableEq

/-- Keep predicate of the recursive removal (`fs.rm` with `recursive` and
    `force`): an entry survives unless it is the target itself or lies
    underneath it. -/
def outsideSubtree (delPath k : Chars) : Bool :=
  !decide (k = delPath ∨ (delPath ++ ['/']) <+: k)

/-- Model of the `DELETE /api/delete` handler of the Vercel variant
    (src/api/server.js): stat the target under `/tmp`; a directory is removed
    recursively, a file is unlinked, and an absent target is a caught backend
    error. -/
def deleteVercel (fs : Fs) (file : Option String) : Fs × DelResp :=
  if jsFalsy file then (fs, DelResp.clientError)
  else
    let delPath := joinParts "/tmp/".data (file.getD "").data
    match fsFind fs delPath with
    | none => (fs, DelResp.backendError)
    | some FsNode.dir => (fs.filter (fun e => outsideSubtree delPath e.1), DelResp.deletedFolder)
    | some (FsNode.file _) => (fs.filter (fun e => !decide (e.1 = delPath)), DelResp.deletedFile)

/-- State visible to the download error callback: whether the stream failed
    and whether response headers were already sent at that point. -/
structure DlCtx where
  err : Bool
  headersSent : Bool
  deriving DecidableEq

inductive DlWrite where
  | noWrite
  | wroteError
  deriving DecidableEq

/-- Model of the download error callback of the Vercel variant
    (src/api/server.js): the error write is guarded by `headersSent`. -/
def downloadCbVercel (ctx : DlCtx) : DlWrite :=
  if ctx.err then (if ctx.headersSent then DlWrite.noWrite else DlWrite.wroteError)
  else DlWrite.noWrite

/-- Model of the download error callback of the local variant
    (src/unnamed/part_000): the error write is attempted unconditionally. -/
def downloadCbLocal (ctx : DlCtx) : DlWrite :=
  if ctx.err then DlWrite.wroteError else DlWrite.noWrite

/-! The remote-repository variant (src/unnamed/part_001).  The content store
    maps a path to its content and its fingerprint. -/

abbrev Repo := List (String × String × String)

def repoFind : Repo → String → Option (String × String)
  | [], _ => none
  | (p, c, s) :: rest, q => if p = q then some (c, s) else repoFind rest q

/-- Modelled from the spec: the opaque content fingerprint the backend
    assigns to stored content (fingerprint creation is the backend's, not the
    server's). -/
def mkSha (content : String) : String := "sha:" ++ content

inductive GhCallResult where
  | ok (newSha : String)
  | rejected
  deriving DecidableEq

/-- Modelled from the spec: the backend update call, which "rejects the call
    if the fingerprint is stale (the file changed since it was last read)";
    an update must carry the current fingerprint of the stored file. -/
def ghPut (repo : Repo) (p content sha : String) : Repo × GhCallResult :=
  match repoFind repo p with
  | some (_, cur) =>
      if sha = cur then
        ((p, content, mkSha content) :: repo.filter (fun e => !decide (e.1 = p)),
          GhCallResult.ok (mkSha content))
      else (repo, GhCallResult.rejected)
  | none => (repo, GhCallResult.rejected)

/-- Modelled from the spec: the backend delete call, fingerprint-gated in the
    same way as the update call. -/
def ghDelete (repo : Repo) (p sha : String) : Repo × GhCallResult :=
  match repoFind repo p with
  | some (_, cur) =>
      if sha = cur then (repo.filter (fun e => !decide (e.1 = p)), GhCallResult.ok "")
      else (repo, GhCallResult.rejected)
  | none => (repo, GhCallResult.rejected)

inductive GhReadResp where
  | clientError
  | ok (content sha : String)
  | notAFile
  | backendError
  deriving DecidableEq

/-- Model of the `GET /api/file-content` handler of the remote variant
    (src/unnamed/part_001): fetch the path and return the decoded content
    together with its fingerprint; a falsy decoded content is reported as
    not-a-file. -/
def fileContentGh (repo : Repo) (file : Option String) : GhReadResp :=
  if jsFalsy file then GhReadResp.clientError
  else
    match repoFind repo (file.getD "") with
    | none => GhReadResp.backendError
    | some (c, s) => if c = "" then GhReadResp.notAFile else GhReadResp.ok c s

inductive GhSaveResp where
  | clientError
  | saved (newSha : String)
  | backendError
  deriving DecidableEq

/-- Model of the `POST /api/save-file` handler of the remote variant
    (src/unnamed/part_001): name, content and fingerprint are all required
    before the backend is called, and the caller's fingerprint is passed
    through to the backend update call. -/
def saveFileGh (repo : Repo) (file_name content sha : Option String) : Repo × GhSaveResp :=
  if jsFalsy file_name || content = none || jsFalsy sha then (repo, GhSaveResp.clientError)
  else
    match ghPut repo (file_name.getD "") (content.getD "") (sha.getD "") with
    | (r, GhCallResult.ok ns) => (r, GhSaveResp.saved ns)
    | (r, GhCallResult.rejected) => (r, GhSaveResp.backendError)

inductive GhDelResp where
  | clientError
  | deleted
  | backendError
  deriving DecidableEq

/-- Model of the `DELETE /api/delete` handler of the remote variant
    (src/unnamed/part_001): name and fingerprint are required before the
    backend is called, and the caller's fingerprint is passed through to the
    backend delete call. -/
def deleteGh (repo : Repo) (file sha : Option String) : Repo × GhDelResp :=
  if jsFalsy file || jsFalsy sha then (repo, GhDelResp.clientError)
  else
    match ghDelete repo (file.getD "") (sha.getD "") with
    | (r, GhCallResult.ok _) => (r, GhDelResp.deleted)
    | (r, GhCallResult.rejected) => (r, GhDelResp.backendError)

/-! Helper lemmas about the segment-level path functions. -/

theorem splitSlash_ne_nil (cs : Chars) : splitSlash cs ≠ [] := by
  induction cs with
  | nil => simp [splitSlash]
  | cons c cs ih =>
    simp only [splitSlash]
    split
    · simp
    · cases h : splitSlash cs <;> simp [consHead]

theorem consHead_append (c : Char) (x y : List Chars) (hx : x ≠ []) :
    consHead c (x ++ y) = consHead c x ++ y := by
  cases x with
  | nil => exact absurd rfl hx
  | cons s ss => simp [consHead]

theorem splitSlash_append (a b : Chars) :
    splitSlash (a ++ '/' :: b) = splitSlash a ++ splitSlash b := by
  induction a with
  | nil => simp [splitSlash]
  | cons c a ih =>
    show (if c = '/' then [] :: splitSlash (a ++ '/' :: b)
          else consHead c (splitSlash (a ++ '/' :: b))) =
        (if c = '/' then [] :: splitSlash a else consHead c (splitSlash a)) ++ splitSlash b
    rw [ih]
    split
    · simp
    · exact consHead_append c _ _ (splitSlash_ne_nil a)

theorem no_sep_of_mem_splitSlash {cs : Chars} {s : Chars} (h : s ∈ splitSlash cs) :
    '/' ∉ s := by
  induction cs generalizing s with
  | nil => simp [splitSlash] at h; simp [h]
  | cons c cs ih =>
    simp only [splitSlash] at h
    by_cases hc : c = '/'
    · simp [hc] at h
      rcases h with h | h
      · simp [h]
      · exact ih h
    · simp [hc] at h
      cases hr : splitSlash cs with
      | nil => exact absurd hr (splitSlash_ne_nil cs)
      | cons t ts =>
        rw [hr] at h
        simp [consHead] at h
        rcases h with h | h
        · subst h
          intro hmem
          rcases List.mem_cons.mp hmem with h1 | h1
          · exact hc h1.symm
          · exact ih (hr ▸ List.mem_cons_self t ts) h1
        · exact ih (hr ▸ List.mem_cons_of_mem t h)

theorem splitSlash_no_sep {s : Chars} (h : '/' ∉ s) : splitSlash s = [s] := by
  induction s with
  | nil => rfl
  | cons c cs ih =>
    have hc : ¬ c = '/' := fun hcc => h (hcc ▸ List.mem_cons_self c cs)
    have hcs : '/' ∉ cs := fun hm => h (List.mem_cons_of_mem c hm)
    simp [splitSlash, hc, ih hcs, consHead]

theorem splitSlash_joinSegs {segs : List Chars} (hne : segs ≠ [])
    (h : ∀ s ∈ segs, '/' ∉ s) : splitSlash (joinSegs segs) = segs := by
  induction segs with
  | nil => exact absurd rfl hne
  | cons s rest ih =>
    cases rest with
    | nil => exact splitSlash_no_sep (h s (List.mem_cons_self s []))
    | cons t ts =>
      have : joinSegs (s :: t :: ts) = s ++ '/' :: joinSegs (t :: ts) := rfl
      rw [this, splitSlash_append, splitSlash_no_sep (h s (List.mem_cons_self s _)),
        ih (by simp) (fun u hu => h u (List.mem_cons_of_mem s hu))]
      rfl

theorem joinSegs_append {xs ys : List Chars} (hx : xs ≠ []) (hy : ys ≠ []) :
    joinSegs (xs ++ ys) = joinSegs xs ++ '/' :: joinSegs ys := by
  induction xs with
  | nil => exact absurd rfl hx
  | cons x xs ih =>
    cases xs with
    | nil =>
      cases ys with
      | nil => exact absurd rfl hy
      | cons y ys => simp [joinSegs]
    | cons x2 xs2 =>
      have hstep : joinSegs (x :: ((x2 :: xs2) ++ ys)) =
          x ++ '/' :: joinSegs ((x2 :: xs2) ++ ys) := by
        cases hj : (x2 :: xs2) ++ ys with
        | nil => simp at hj
        | cons u us => rfl
      calc joinSegs ((x :: x2 :: xs2) ++ ys)
          = x ++ '/' :: joinSegs ((x2 :: xs2) ++ ys) := hstep
        _ = x ++ '/' :: (joinSegs (x2 :: xs2) ++ '/' :: joinSegs ys) := by
            rw [ih (by simp)]
        _ = joinSegs (x :: x2 :: xs2) ++ '/' :: joinSegs ys := by
            simp [joinSegs]

theorem joinSegs_cons_ne_nil {x : Chars} {rest : List Chars} (h : x ≠ [] ∨ rest ≠ []) :
    joinSegs (x :: rest) ≠ [] := by
  cases rest with
  | nil =>
    rcases h with h | h
    · simpa [joinSegs] using h
    · exact absurd rfl h
  | cons t ts => simp [joinSegs]

theorem joinSegs_getLast_ne_sep {xs : List Chars} (hne : xs ≠ [])
    (h : ∀ s ∈ xs, s ≠ [] ∧ '/' ∉ s) : (joinSegs xs).getLast? ≠ some '/' := by
  induction xs with
  | nil => exact absurd rfl hne
  | cons x xs ih =>
    cases xs with
    | nil =>
      have hx := h x (List.mem_cons_self x [])
      show x.getLast? ≠ some '/'
      intro hl
      exact hx.2 (List.mem_of_getLast?_eq_some hl)
    | cons y ys =>
      have hx := h x (List.mem_cons_self x _)
      have htail : ∀ s ∈ y :: ys, s ≠ [] ∧ '/' ∉ s :=
        fun s hs => h s (List.mem_cons_of_mem x hs)
      have hjne : joinSegs (y :: ys) ≠ [] :=
        joinSegs_cons_ne_nil (Or.inl (htail y (List.mem_cons_self y ys)).1)
      have hjl := ih (by simp) htail
      obtain ⟨c, hc⟩ : ∃ c, (joinSegs (y :: ys)).getLast? = some c := by
        cases hg : (joinSegs (y :: ys)).getLast? with
        | none => exact absurd (List.getLast?_eq_none_iff.mp hg) hjne
        | some c => exact ⟨c, rfl⟩
      have hcs : c ≠ '/' := fun he => hjl (he ▸ hc)
      have : joinSegs (x :: y :: ys) = x ++ '/' :: joinSegs (y :: ys) := rfl
      rw [this]
      have h2 : ('/' :: joinSegs (y :: ys)) = ['/'] ++ joinSegs (y :: ys) := rfl
      rw [List.getLast?_append, h2, List.getLast?_append, hc]
      simp [hcs]

/-- Segments kept by the absolute normalization pass when no `..` occurs:
    empty and `.` segments are dropped, the rest is kept in order. -/
def cleanSegs : List Chars → List Chars
  | [] => []
  | s :: rest => if s = [] ∨ s = ['.'] then cleanSegs rest else s :: cleanSegs rest

theorem normSegs_valid_front {xs : List Chars} (h : ∀ s ∈ xs, validSeg s) :
    ∀ ts acc, normSegs (xs ++ ts) acc = normSegs ts (xs.reverse ++ acc) := by
  induction xs with
  | nil => intro ts acc; simp
  | cons x xs ih =>
    intro ts acc
    have hx := h x (List.mem_cons_self x xs)
    have h1 : ¬ (x = [] ∨ x = ['.']) := by
      rintro (h1 | h1)
      · exact hx.1 h1
      · exact hx.2.1 h1
    have hstep : normSegs ((x :: xs) ++ ts) acc = normSegs (xs ++ ts) (x :: acc) := by
      show normSegs (x :: (xs ++ ts)) acc = normSegs (xs ++ ts) (x :: acc)
      simp [normSegs, h1, hx.2.2.1]
    rw [hstep, ih (fun s hs => h s (List.mem_cons_of_mem x hs)) ts (x :: acc)]
    simp

theorem normSegs_no_dd {ts : List Chars} (h : ['.', '.'] ∉ ts) :
    ∀ acc, normSegs ts acc = acc.reverse ++ cleanSegs ts := by
  induction ts with
  | nil => intro acc; simp [normSegs, cleanSegs]
  | cons s ts ih =>
    intro acc
    have hs : ¬ s = ['.', '.'] := fun he => h (he ▸ List.mem_cons_self s ts)
    have hts : ['.', '.'] ∉ ts := fun hm => h (List.mem_cons_of_mem s hm)
    by_cases h1 : s = [] ∨ s = ['.']
    · simp [normSegs, cleanSegs, h1, ih hts]
    · simp [normSegs, cleanSegs, h1, hs, ih hts]

theorem normSegs_replicate_dd :
    ∀ (k : Nat) (ts acc : List Chars),
      normSegs (List.replicate k ['.', '.'] ++ ts) acc = normSegs ts (acc.drop k) := by
  intro k
  induction k with
  | zero => intro ts acc; simp
  | succ k ih =>
    intro ts acc
    have hstep : normSegs (List.replicate (k + 1) ['.', '.'] ++ ts) acc =
        normSegs (List.replicate k ['.', '.'] ++ ts) acc.tail := by
      show normSegs (['.', '.'] :: (List.replicate k ['.', '.'] ++ ts)) acc = _
      simp [normSegs]
    rw [hstep, ih ts acc.tail, ← List.drop_one, List.drop_drop, Nat.add_comm]

theorem cleanSegs_eq_of_valid {ts : List Chars} (h : ∀ s ∈ ts, s ≠ [] ∧ s ≠ ['.']) :
    cleanSegs ts = ts := by
  induction ts with
  | nil => rfl
  | cons s ts ih =>
    have hs := h s (List.mem_cons_self s ts)
    have h1 : ¬ (s = [] ∨ s = ['.']) := by
      rintro (h1 | h1)
      · exact hs.1 h1
      · exact hs.2 h1
    simp [cleanSegs, h1, ih (fun u hu => h u (List.mem_cons_of_mem s hu))]

theorem mem_cleanSegs {ts : List Chars} {s : Chars} (h : s ∈ cleanSegs ts) : s ∈ ts := by
  induction ts with
  | nil => simp [cleanSegs] at h
  | cons t ts ih =>
    by_cases h1 : t = [] ∨ t = ['.']
    · rw [cleanSegs, if_pos h1] at h
      exact List.mem_cons_of_mem t (ih h)
    · rw [cleanSegs, if_neg h1] at h
      rcases List.mem_cons.mp h with h2 | h2
      · exact h2 ▸ List.mem_cons_self t ts
      · exact List.mem_cons_of_mem t (ih h2)

theorem mem_normSegs : ∀ (ts acc : List Chars) (s : Chars),
    s ∈ normSegs ts acc → s ∈ ts ∨ s ∈ acc := by
  intro ts
  induction ts with
  | nil =>
    intro acc s h
    right
    simpa [normSegs] using h
  | cons t ts ih =>
    intro acc s h
    by_cases h1 : t = [] ∨ t = ['.']
    · rcases ih acc s (by simpa [normSegs, h1] using h) with h2 | h2
      · exact Or.inl (List.mem_cons_of_mem t h2)
      · exact Or.inr h2
    · by_cases h2 : t = ['.', '.']
      · rcases ih acc.tail s (by simpa [normSegs, h1, h2] using h) with h3 | h3
        · exact Or.inl (List.mem_cons_of_mem t h3)
        · exact Or.inr (List.mem_of_mem_tail h3)
      · rcases ih (t :: acc) s (by simpa [normSegs, h1, h2] using h) with h3 | h3
        · exact Or.inl (List.mem_cons_of_mem t h3)
        · rcases List.mem_cons.mp h3 with h4 | h4
          · exact Or.inl (h4 ▸ List.mem_cons_self t ts)
          · exact Or.inr h4

theorem normSegs_valid_out : ∀ (ts acc : List Chars),
    (∀ s ∈ ts, '/' ∉ s) → (∀ s ∈ acc, validSeg s) →
    ∀ s ∈ normSegs ts acc, validSeg s := by
  intro ts
  induction ts with
  | nil =>
    intro acc _ hacc s hs
    exact hacc s (by simpa [normSegs] using hs)
  | cons t ts ih =>
    intro acc hts hacc s hs
    by_cases h1 : t = [] ∨ t = ['.']
    · exact ih acc (fun u hu => hts u (List.mem_cons_of_mem t hu)) hacc s
        (by simpa [normSegs, h1] using hs)
    · by_cases h2 : t = ['.', '.']
      · exact ih acc.tail (fun u hu => hts u (List.mem_cons_of_mem t hu))
          (fun u hu => hacc u (List.mem_of_mem_tail hu)) s
          (by simpa [normSegs, h1, h2] using hs)
      · refine ih (t :: acc) (fun u hu => hts u (List.mem_cons_of_mem t hu)) ?_ s
          (by simpa [normSegs, h1, h2] using hs)
        intro u hu
        rcases List.mem_cons.mp hu with h3 | h3
        · subst h3
          push_neg at h1
          exact ⟨h1.1, h1.2, h2, hts u (List.mem_cons_self u ts)⟩
        · exact hacc u h3

theorem reverse_drop_sub {α : Type} (l : List α) (c : Nat) :
    l.reverse.drop (l.length - c) = (l.take c).reverse := by
  by_cases h : c ≤ l.length
  · have h1 : l.reverse = (l.drop c).reverse ++ (l.take c).reverse := by
      rw [← List.reverse_append, List.take_append_drop]
    have h2 : (l.drop c).reverse.length = l.length - c := by simp
    rw [h1, ← h2, List.drop_left]
  · have hc : l.length ≤ c := Nat.le_of_not_le h
    rw [Nat.sub_eq_zero_of_le hc, List.drop_zero, List.take_of_length_le hc]

theorem commonLen_le_left : ∀ (a b : List Chars), commonLen a b ≤ a.length := by
  intro a
  induction a with
  | nil => intro b; simp [commonLen]
  | cons x xs ih =>
    intro b
    cases b with
    | nil => simp [commonLen]
    | cons y ys =>
      by_cases h : x = y
      · simpa [commonLen, h] using ih ys
      · simp [commonLen, h]

theorem commonLen_le_right : ∀ (a b : List Chars), commonLen a b ≤ b.length := by
  intro a
  induction a with
  | nil => intro b; simp [commonLen]
  | cons x xs ih =>
    intro b
    cases b with
    | nil => simp [commonLen]
    | cons y ys =>
      by_cases h : x = y
      · simpa [commonLen, h] using ih ys
      · simp [commonLen, h]

theorem take_commonLen : ∀ (a b : List Chars),
    a.take (commonLen a b) = b.take (commonLen a b) := by
  intro a
  induction a with
  | nil => intro b; simp [commonLen]
  | cons x xs ih =>
    intro b
    cases b with
    | nil => simp [commonLen]
    | cons y ys =>
      by_cases h : x = y
      · simp [commonLen, h, ih ys]
      · simp [commonLen, h]

theorem eq_of_drop_commonLen_nil : ∀ (a b : List Chars),
    b.drop (commonLen a b) = [] → b = a.take (commonLen a b) := by
  intro a b h
  have h1 : b.length ≤ commonLen a b := by
    by_contra h2
    have := List.length_drop (commonLen a b) b
    rw [h] at this
    simp at this
    omega
  have h2 : b.take (commonLen a b) = b := List.take_of_length_le h1
  rw [take_commonLen a b, h2]

theorem validRoot_segs {rs : List Chars} (h : validRoot rs) :
    ∀ s ∈ rs, s ≠ [] ∧ '/' ∉ s :=
  fun s hs => ⟨(h.2 s hs).1, (h.2 s hs).2.2.2⟩

theorem joinSegs_root_ne_nil {rs : List Chars} (h : validRoot rs) : joinSegs rs ≠ [] := by
  cases rs with
  | nil => exact absurd rfl h.1
  | cons x rest => exact joinSegs_cons_ne_nil (Or.inl (h.2 x (List.mem_cons_self x rest)).1)

theorem rootStr_getLast {rs : List Chars} (h : validRoot rs) :
    (rootStr rs).getLast? ≠ some '/' := by
  have hj := joinSegs_getLast_ne_sep h.1 (validRoot_segs h)
  have hne : joinSegs rs ≠ [] := joinSegs_root_ne_nil h
  obtain ⟨c, hc⟩ : ∃ c, (joinSegs rs).getLast? = some c := by
    cases hg : (joinSegs rs).getLast? with
    | none => exact absurd (List.getLast?_eq_none_iff.mp hg) hne
    | some c => exact ⟨c, rfl⟩
  have hcne : c ≠ '/' := fun he => hj (he ▸ hc)
  have h0 : rootStr rs = ['/'] ++ joinSegs rs := rfl
  rw [h0, List.getLast?_append, hc]
  simpa using hcne

theorem splitSlash_rootStr {rs : List Chars} (h : validRoot rs) :
    splitSlash (rootStr rs) = [] :: rs := by
  have h0 : splitSlash ('/' :: joinSegs rs) = [] :: splitSlash (joinSegs rs) := by
    simp [splitSlash]
  show splitSlash ('/' :: joinSegs rs) = [] :: rs
  rw [h0, splitSlash_joinSegs h.1 (fun s hs => (h.2 s hs).2.2.2)]

theorem normSegs_rootStr {rs : List Chars} (h : validRoot rs) :
    normSegs (splitSlash (rootStr rs)) [] = rs := by
  rw [splitSlash_rootStr h]
  have h1 : normSegs ([] :: rs) [] = normSegs rs [] := by simp [normSegs]
  have h2 : normSegs (rs ++ []) [] = normSegs [] (rs.reverse ++ []) :=
    normSegs_valid_front h.2 [] []
  simp only [List.append_nil] at h2
  rw [h1, h2]
  simp [normSegs]

theorem normalizePath_abs (x : Chars) :
    normalizePath ('/' :: x) =
      (if joinSegs (normSegs (splitSlash ('/' :: x)) []) = [] then ['/']
       else ['/'] ++ joinSegs (normSegs (splitSlash ('/' :: x)) []) ++
         (if ('/' :: x).getLast? = some '/' then ['/'] else [])) := by
  simp [normalizePath]

theorem normalizePath_rootStr {rs : List Chars} (h : validRoot rs) :
    normalizePath (rootStr rs) = rootStr rs := by
  have h0 : rootStr rs = '/' :: joinSegs rs := rfl
  rw [h0, normalizePath_abs, ← h0, normSegs_rootStr h]
  rw [if_neg (joinSegs_root_ne_nil h), if_neg (rootStr_getLast h)]
  simp [rootStr]

theorem joinParts_root_nil {rs : List Chars} (h : validRoot rs) :
    joinParts (rootStr rs) [] = rootStr rs := by
  have hne : rootStr rs ≠ [] := by simp [rootStr]
  rw [joinParts, if_neg hne, if_pos rfl, normalizePath_rootStr h]

theorem joinParts_root_cons (rs : List Chars) {t : Chars} (ht : t ≠ []) :
    joinParts (rootStr rs) t = normalizePath (rootStr rs ++ '/' :: t) := by
  have hne : rootStr rs ≠ [] := by simp [rootStr]
  rw [joinParts, if_neg hne, if_neg ht]

theorem normalize_root_join {rs : List Chars} (h : validRoot rs) {t : Chars} (ht : t ≠ []) :
    normalizePath (rootStr rs ++ '/' :: t) =
      (if joinSegs (normSegs (splitSlash t) rs.reverse) = [] then ['/']
       else ['/'] ++ joinSegs (normSegs (splitSlash t) rs.reverse) ++
         (if t.getLast? = some '/' then ['/'] else [])) := by
  have h0 : rootStr rs ++ '/' :: t = '/' :: (joinSegs rs ++ '/' :: t) := rfl
  have h1 : splitSlash ('/' :: (joinSegs rs ++ '/' :: t)) = [] :: (rs ++ splitSlash t) := by
    have ha : splitSlash ('/' :: (joinSegs rs ++ '/' :: t)) =
        [] :: splitSlash (joinSegs rs ++ '/' :: t) := by simp [splitSlash]
    rw [ha, splitSlash_append, splitSlash_joinSegs h.1 (fun s hs => (h.2 s hs).2.2.2)]
  have h2 : normSegs ([] :: (rs ++ splitSlash t)) [] = normSegs (splitSlash t) rs.reverse := by
    have ha : normSegs ([] :: (rs ++ splitSlash t)) [] = normSegs (rs ++ splitSlash t) [] := by
      simp [normSegs]
    rw [ha, normSegs_valid_front h.2 (splitSlash t) []]
    simp
  have h3 : ('/' :: (joinSegs rs ++ '/' :: t)).getLast? = t.getLast? := by
    obtain ⟨c, hc⟩ : ∃ c, t.getLast? = some c := by
      cases hg : t.getLast? with
      | none => exact absurd (List.getLast?_eq_none_iff.mp hg) ht
      | some c => exact ⟨c, rfl⟩
    have hasc : ('/' :: (joinSegs rs ++ '/' :: t)) = (('/' :: joinSegs rs) ++ ['/']) ++ t := by
      simp
    rw [hasc, List.getLast?_append, hc]
    simp
  rw [h0, normalizePath_abs, h1, h2, h3]

theorem joinSegs_root_append_ne_nil {rs : List Chars} (h : validRoot rs)
    (extra : List Chars) : joinSegs (rs ++ extra) ≠ [] := by
  cases hrs : rs with
  | nil => exact absurd hrs h.1
  | cons x xs =>
    have hx : x ≠ [] := (h.2 x (by rw [hrs]; exact List.mem_cons_self x xs)).1
    show joinSegs (x :: (xs ++ extra)) ≠ []
    exact joinSegs_cons_ne_nil (Or.inl hx)

theorem root_le_join {rs : List Chars} (h : validRoot rs) (extra : List Chars) :
    rootStr rs <+: ('/' :: joinSegs (rs ++ extra)) := by
  cases extra with
  | nil => simp [rootStr]
  | cons e es =>
    rw [joinSegs_append h.1 (by simp)]
    exact ⟨'/' :: joinSegs (e :: es), by simp [rootStr]⟩

theorem getSafePath_eq (root p : Chars) :
    getSafePath root p =
      (if root.isPrefixOf (joinParts root (stripLead p)) then joinParts root (stripLead p)
       else root) := rfl

theorem splitSlash_cons_sep (cs : Chars) : splitSlash ('/' :: cs) = [] :: splitSlash cs := by
  simp [splitSlash]

theorem noDotDot_stripLead {p : Chars} (h : noDotDot p) :
    ['.', '.'] ∉ splitSlash (stripLead p) := by
  unfold stripLead
  split
  · rename_i hh
    cases p with
    | nil => simp at hh
    | cons c cs =>
      have hc : c = '/' := by simpa using hh
      intro hm
      apply h
      show ['.', '.'] ∈ splitSlash (c :: cs)
      rw [hc, splitSlash_cons_sep]
      exact List.mem_cons_of_mem [] hm
  · exact h

theorem root_join_no_dd {rs : List Chars} (h : validRoot rs) {t : Chars} (ht : t ≠ [])
    (hdd : ['.', '.'] ∉ splitSlash t) :
    normalizePath (rootStr rs ++ '/' :: t) =
      '/' :: (joinSegs (rs ++ cleanSegs (splitSlash t)) ++
        (if t.getLast? = some '/' then ['/'] else [])) := by
  rw [normalize_root_join h ht]
  have h1 : normSegs (splitSlash t) rs.reverse = rs ++ cleanSegs (splitSlash t) := by
    rw [normSegs_no_dd hdd rs.reverse]
    simp
  rw [h1, if_neg (joinSegs_root_append_ne_nil h _)]
  simp

theorem splitSlash_replicate_sep :
    ∀ m, splitSlash (List.replicate m '/') = List.replicate (m + 1) ([] : Chars) := by
  intro m
  induction m with
  | zero => rfl
  | succ m ih =>
    show splitSlash ('/' :: List.replicate m '/') = _
    rw [splitSlash_cons_sep, ih]
    rfl

theorem normSegs_replicate_nil :
    ∀ m (acc : List Chars), normSegs (List.replicate m ([] : Chars)) acc = acc.reverse := by
  intro m
  induction m with
  | zero => intro acc; simp [normSegs]
  | succ m ih =>
    intro acc
    show normSegs (([] : Chars) :: List.replicate m ([] : Chars)) acc = acc.reverse
    rw [normSegs]
    simp [ih]

/-! Claim theorems about the path resolver. -/

/-- C10: postcondition invariant of the path resolver — for every root and
    every input string, the string returned by `getSafePath` begins with the
    root as a string prefix (the function is total, and the guarantee really
    is string-prefix containment, not directory containment). -/
theorem safePath_root_string_invariant (root p : Chars) :
    root <+: getSafePath root p := by
  rw [getSafePath_eq]
  split
  · rename_i hc
    exact List.isPrefixOf_iff_prefix.mp hc
  · exact List.prefix_refl root

/-- C1 counterexample: with root `/srv/data`, the input `../data2` joins to
    `/srv/data2`, which lies outside the root boundary, yet `getSafePath`
    returns it unchanged instead of falling back to the root — the check is
    string-prefix comparison, not directory containment. -/
theorem safePath_escape_cex :
    ¬ inBoundary "/srv/data".data
        (joinParts "/srv/data".data (stripLead "../data2".data)) ∧
    getSafePathS "/srv/data" "../data2" = "/srv/data2" ∧
    getSafePathS "/srv/data" "../data2" ≠ "/srv/data" := by
  refine ⟨?_, by decide, by decide⟩
  decide

/-- C1 amended: `getSafePath` falls back to the root exactly on the inputs
    whose lexical join fails the string-prefix comparison against the root;
    joins that escape the directory boundary while extending the root's name
    string are returned unchanged. -/
theorem safePath_fail_closed (root p : Chars)
    (h : ¬ root <+: joinParts root (stripLead p)) :
    getSafePath root p = root := by
  rw [getSafePath_eq, if_neg]
  simpa using h

/-- Witness for C1: `../../secret` joins to `/secret`, fails the prefix
    check, and resolves to the root. -/
theorem safePath_fail_closed_w :
    (¬ "/srv/data".data <+: joinParts "/srv/data".data (stripLead "../../secret".data)) ∧
    getSafePath "/srv/data".data "../../secret".data = "/srv/data".data :=
  ⟨by decide, safePath_fail_closed _ _ (by decide)⟩

/-- C3: for every user path containing no `..` segment, `getSafePath` returns
    the root joined with the user path (one leading separator stripped
    first); the fallback branch is never taken. -/
theorem safePath_no_dotdot (rs : List Chars) (h : validRoot rs) (p : Chars)
    (hdd : noDotDot p) :
    getSafePath (rootStr rs) p = joinParts (rootStr rs) (stripLead p) := by
  by_cases ht : stripLead p = []
  · rw [getSafePath_eq, ht, joinParts_root_nil h,
      if_pos (List.isPrefixOf_iff_prefix.mpr (List.prefix_refl _))]
  · have hdd2 := noDotDot_stripLead hdd
    have hjoin : joinParts (rootStr rs) (stripLead p) =
        '/' :: (joinSegs (rs ++ cleanSegs (splitSlash (stripLead p))) ++
          (if (stripLead p).getLast? = some '/' then ['/'] else [])) := by
      rw [joinParts_root_cons rs ht, root_join_no_dd h ht hdd2]
    have hpre : rootStr rs <+: joinParts (rootStr rs) (stripLead p) := by
      rw [hjoin]
      refine List.IsPrefix.trans (root_le_join h (cleanSegs (splitSlash (stripLead p)))) ?_
      exact ⟨(if (stripLead p).getLast? = some '/' then ['/'] else []), by simp⟩
    rw [getSafePath_eq, if_pos (List.isPrefixOf_iff_prefix.mpr hpre)]

/-- Witness for C3: a plain relative path resolves to the verbatim join. -/
theorem safePath_no_dotdot_w :
    getSafePath (rootStr [['s', 'r', 'v'], ['d', 'a', 't', 'a']]) "docs/a.txt".data =
      joinParts (rootStr [['s', 'r', 'v'], ['d', 'a', 't', 'a']])
        (stripLead "docs/a.txt".data) :=
  safePath_no_dotdot [['s', 'r', 'v'], ['d', 'a', 't', 'a']] (by decide)
    "docs/a.txt".data (by decide)

/-- C9 counterexample: a user path of two separators resolves to the root
    followed by a trailing separator, not to the root itself. -/
theorem safePath_sep_only_cex :
    getSafePathS "/srv/data" "//" = "/srv/data/" ∧
    getSafePathS "/srv/data" "//" ≠ "/srv/data" := by
  exact ⟨by decide, by decide⟩

/-- C9 amended: the empty user path and a single separator resolve to the
    root itself; a user path of two or more separators resolves to the root
    followed by one trailing separator. -/
theorem safePath_sep_only (rs : List Chars) (h : validRoot rs) :
    getSafePath (rootStr rs) [] = rootStr rs ∧
    getSafePath (rootStr rs) ['/'] = rootStr rs ∧
    ∀ n : Nat, getSafePath (rootStr rs) (List.replicate (n + 2) '/') =
      rootStr rs ++ ['/'] := by
  have base : ∀ q : Chars, stripLead q = [] → getSafePath (rootStr rs) q = rootStr rs := by
    intro q hq
    rw [getSafePath_eq, hq, joinParts_root_nil h,
      if_pos (List.isPrefixOf_iff_prefix.mpr (List.prefix_refl _))]
  refine ⟨base [] rfl, base ['/'] rfl, ?_⟩
  intro n
  have hstrip : stripLead (List.replicate (n + 2) '/') = List.replicate (n + 1) '/' := by
    show stripLead ('/' :: List.replicate (n + 1) '/') = List.replicate (n + 1) '/'
    rfl
  have ht : List.replicate (n + 1) '/' ≠ [] := by simp
  have hjoin : joinParts (rootStr rs) (List.replicate (n + 1) '/') = rootStr rs ++ ['/'] := by
    rw [joinParts_root_cons rs ht, normalize_root_join h ht, splitSlash_replicate_sep,
      normSegs_replicate_nil]
    rw [List.reverse_reverse, if_neg (joinSegs_root_ne_nil h)]
    have hlast : (List.replicate (n + 1) '/').getLast? = some '/' := by
      rw [List.replicate_succ' n '/', List.getLast?_concat]
    rw [if_pos hlast]
    simp [rootStr]
  rw [getSafePath_eq, hstrip, hjoin,
    if_pos (List.isPrefixOf_iff_prefix.mpr (List.prefix_append _ _))]

/-- Witness for C9: the amended behavior at a concrete root, for the empty
    input and for three separators. -/
theorem safePath_sep_only_w :
    getSafePath (rootStr [['s', 'r', 'v'], ['d', 'a', 't', 'a']]) [] =
      rootStr [['s', 'r', 'v'], ['d', 'a', 't', 'a']] ∧
    getSafePath (rootStr [['s', 'r', 'v'], ['d', 'a', 't', 'a']]) (List.replicate 3 '/') =
      rootStr [['s', 'r', 'v'], ['d', 'a', 't', 'a']] ++ ['/'] := by
  have h := safePath_sep_only [['s', 'r', 'v'], ['d', 'a', 't', 'a']] (by decide)
  exact ⟨h.1, h.2.2 1⟩

theorem root_le_of_le_concat_sep {rs : List Chars} (h : validRoot rs) {x : Chars}
    (hp : rootStr rs <+: x ++ ['/']) : rootStr rs <+: x := by
  rcases List.prefix_concat_iff.mp hp with h1 | h1
  · exfalso
    apply rootStr_getLast h
    rw [h1, List.getLast?_concat]
  · exact h1

theorem getSafePath_shape (rs : List Chars) (h : validRoot rs) (p : Chars) :
    ∃ qs tail, getSafePath (rootStr rs) p = '/' :: (joinSegs qs ++ tail) ∧
      (tail = [] ∨ tail = ['/']) ∧ qs ≠ [] ∧ (∀ s ∈ qs, validSeg s) ∧
      (∀ s ∈ qs, s ∈ rs ∨ s ∈ splitSlash (stripLead p)) ∧
      rootStr rs <+: ('/' :: joinSegs qs) := by
  have hroot : ∀ u : Chars, ∃ qs tail, rootStr rs = '/' :: (joinSegs qs ++ tail) ∧
      (tail = [] ∨ tail = ['/']) ∧ qs ≠ [] ∧ (∀ s ∈ qs, validSeg s) ∧
      (∀ s ∈ qs, s ∈ rs ∨ s ∈ splitSlash u) ∧
      rootStr rs <+: ('/' :: joinSegs qs) :=
    fun u => ⟨rs, [], by simp [rootStr], Or.inl rfl, h.1, h.2, fun s hs => Or.inl hs,
      by simp [rootStr]⟩
  rw [getSafePath_eq]
  by_cases hc : (rootStr rs).isPrefixOf (joinParts (rootStr rs) (stripLead p)) = true
  · rw [if_pos hc]
    have hc2 : rootStr rs <+: joinParts (rootStr rs) (stripLead p) :=
      List.isPrefixOf_iff_prefix.mp hc
    by_cases ht : stripLead p = []
    · rw [ht, joinParts_root_nil h]
      exact hroot []
    · have hvalid : ∀ s ∈ normSegs (splitSlash (stripLead p)) rs.reverse, validSeg s :=
        normSegs_valid_out _ _ (fun s hs => no_sep_of_mem_splitSlash hs)
          (fun s hs => h.2 s (List.mem_reverse.mp hs))
      have hmem : ∀ s ∈ normSegs (splitSlash (stripLead p)) rs.reverse,
          s ∈ rs ∨ s ∈ splitSlash (stripLead p) := by
        intro s hs
        rcases mem_normSegs _ _ s hs with h1 | h1
        · exact Or.inr h1
        · exact Or.inl (List.mem_reverse.mp h1)
      rw [joinParts_root_cons rs ht, normalize_root_join h ht] at hc2 ⊢
      by_cases hcore : joinSegs (normSegs (splitSlash (stripLead p)) rs.reverse) = []
      · exfalso
        rw [if_pos hcore] at hc2
        have hlen := hc2.length_le
        have h3 : 1 ≤ (joinSegs rs).length := List.length_pos.mpr (joinSegs_root_ne_nil h)
        have h4 : (rootStr rs).length = (joinSegs rs).length + 1 := by
          show ('/' :: joinSegs rs).length = _
          simp
        have h5 : (['/'] : Chars).length = 1 := rfl
        omega
      · rw [if_neg hcore]
        refine ⟨normSegs (splitSlash (stripLead p)) rs.reverse,
          (if (stripLead p).getLast? = some '/' then ['/'] else []),
          rfl, ?_, ?_, hvalid, hmem, ?_⟩
        · split
          · exact Or.inr rfl
          · exact Or.inl rfl
        · intro hnil
          rw [hnil] at hcore
          exact hcore rfl
        · rw [if_neg hcore] at hc2
          by_cases hl : (stripLead p).getLast? = some '/'
          · rw [if_pos hl] at hc2
            have hc3 : rootStr rs <+:
                ('/' :: joinSegs (normSegs (splitSlash (stripLead p)) rs.reverse)) ++ ['/'] := by
              simpa using hc2
            exact root_le_of_le_concat_sep h hc3
          · rw [if_neg hl] at hc2
            simpa using hc2
  · rw [if_neg hc]
    exact hroot (stripLead p)

theorem normSegs_absShape {qs : List Chars} (hne : qs ≠ [])
    (hv : ∀ s ∈ qs, validSeg s) {tail : Chars} (htail : tail = [] ∨ tail = ['/']) :
    normSegs (splitSlash ('/' :: (joinSegs qs ++ tail))) [] = qs := by
  have hq : validRoot qs := ⟨hne, hv⟩
  rcases htail with rfl | rfl
  · simpa [rootStr] using normSegs_rootStr hq
  · have h1 : splitSlash ('/' :: (joinSegs qs ++ ['/'])) = [] :: (qs ++ [[]]) := by
      rw [splitSlash_cons_sep]
      have h2 : joinSegs qs ++ ['/'] = joinSegs qs ++ '/' :: [] := rfl
      rw [h2, splitSlash_append, splitSlash_joinSegs hq.1 (fun s hs => (hv s hs).2.2.2)]
      rfl
    rw [h1]
    have h3 : normSegs ([] :: (qs ++ [[]])) [] = normSegs (qs ++ [[]]) [] := by
      simp [normSegs]
    rw [h3, normSegs_valid_front hv [[]] []]
    simp [normSegs]

theorem pathRelative_root_shape {rs qs : List Chars} (hr : validRoot rs)
    (hne : qs ≠ []) (hv : ∀ s ∈ qs, validSeg s) {tail : Chars}
    (htail : tail = [] ∨ tail = ['/']) :
    pathRelative (rootStr rs) ('/' :: (joinSegs qs ++ tail)) =
      (if rs = qs then []
       else joinSegs (List.replicate (rs.length - commonLen rs qs) ['.', '.'] ++
         qs.drop (commonLen rs qs))) := by
  unfold pathRelative
  rw [normSegs_rootStr hr, normSegs_absShape hne hv htail]

theorem drop_commonLen_ne_nil {rs qs : List Chars} (hne : qs ≠ [])
    (hpre : rootStr rs <+: ('/' :: joinSegs qs)) (hrsqs : rs ≠ qs) :
    qs.drop (commonLen rs qs) ≠ [] := by
  intro hdrop
  have hq : qs = rs.take (commonLen rs qs) := eq_of_drop_commonLen_nil rs qs hdrop
  have hcle : commonLen rs qs ≤ rs.length := commonLen_le_left rs qs
  by_cases hfull : commonLen rs qs = rs.length
  · apply hrsqs
    rw [hq, hfull, List.take_length]
  · have htne : rs.take (commonLen rs qs) ≠ [] := fun h0 => hne (by rw [hq, h0])
    have hdne : rs.drop (commonLen rs qs) ≠ [] := by
      intro h0
      have hld := List.length_drop (commonLen rs qs) rs
      rw [h0] at hld
      simp at hld
      omega
    have hjoin : joinSegs rs =
        joinSegs (rs.take (commonLen rs qs)) ++ '/' ::
          joinSegs (rs.drop (commonLen rs qs)) := by
      conv_lhs => rw [← List.take_append_drop (commonLen rs qs) rs]
      exact joinSegs_append htne hdne
    have hlen := hpre.length_le
    have h1 : (rootStr rs).length = (joinSegs rs).length + 1 := by
      show ('/' :: joinSegs rs).length = _
      simp
    have h2 : ('/' :: joinSegs qs).length = (joinSegs qs).length + 1 := by simp
    have h3 : (joinSegs rs).length =
        (joinSegs qs).length + 1 + (joinSegs (rs.drop (commonLen rs qs))).length := by
      rw [hjoin, ← hq, List.length_append, List.length_cons]
      omega
    omega

theorem safePath_of_rel {rs qs : List Chars} (hr : validRoot rs) (hne : qs ≠ [])
    (hv : ∀ s ∈ qs, validSeg s) (hpre : rootStr rs <+: ('/' :: joinSegs qs))
    (hrsqs : rs ≠ qs) :
    getSafePath (rootStr rs)
      ('/' :: joinSegs (List.replicate (rs.length - commonLen rs qs) ['.', '.'] ++
        qs.drop (commonLen rs qs))) = '/' :: joinSegs qs := by
  have hrest : qs.drop (commonLen rs qs) ≠ [] := drop_commonLen_ne_nil hne hpre hrsqs
  have hsegs : ∀ s ∈ List.replicate (rs.length - commonLen rs qs) ['.', '.'] ++
      qs.drop (commonLen rs qs), s ≠ [] ∧ '/' ∉ s := by
    intro s hs
    rcases List.mem_append.mp hs with h1 | h1
    · have he : s = ['.', '.'] := List.eq_of_mem_replicate h1
      subst he
      exact ⟨by simp, by simp⟩
    · have hmem : s ∈ qs := List.mem_of_mem_drop h1
      exact ⟨(hv s hmem).1, (hv s hmem).2.2.2⟩
  have hlistne : List.replicate (rs.length - commonLen rs qs) ['.', '.'] ++
      qs.drop (commonLen rs qs) ≠ [] :=
    fun h0 => hrest (List.append_eq_nil.mp h0).2
  have hrelne : joinSegs (List.replicate (rs.length - commonLen rs qs) ['.', '.'] ++
      qs.drop (commonLen rs qs)) ≠ [] := by
    cases hclist : List.replicate (rs.length - commonLen rs qs) ['.', '.'] ++
        qs.drop (commonLen rs qs) with
    | nil => exact absurd hclist hlistne
    | cons s ss =>
      have hmem : s ∈ List.replicate (rs.length - commonLen rs qs) ['.', '.'] ++
          qs.drop (commonLen rs qs) := by
        rw [hclist]
        exact List.mem_cons_self s ss
      exact joinSegs_cons_ne_nil (Or.inl (hsegs s hmem).1)
  have hsplit : splitSlash (joinSegs (List.replicate (rs.length - commonLen rs qs)
      ['.', '.'] ++ qs.drop (commonLen rs qs))) =
      List.replicate (rs.length - commonLen rs qs) ['.', '.'] ++
        qs.drop (commonLen rs qs) :=
    splitSlash_joinSegs hlistne (fun s hs => (hsegs s hs).2)
  have hlast : (joinSegs (List.replicate (rs.length - commonLen rs qs) ['.', '.'] ++
      qs.drop (commonLen rs qs))).getLast? ≠ some '/' :=
    joinSegs_getLast_ne_sep hlistne hsegs
  have hdd : ['.', '.'] ∉ qs.drop (commonLen rs qs) :=
    fun hm => (hv _ (List.mem_of_mem_drop hm)).2.2.1 rfl
  have hnorm : normSegs (List.replicate (rs.length - commonLen rs qs) ['.', '.'] ++
      qs.drop (commonLen rs qs)) rs.reverse = qs := by
    rw [normSegs_replicate_dd, normSegs_no_dd hdd, reverse_drop_sub, List.reverse_reverse,
      cleanSegs_eq_of_valid (fun s hs => ⟨(hv s (List.mem_of_mem_drop hs)).1,
        (hv s (List.mem_of_mem_drop hs)).2.1⟩),
      take_commonLen, List.take_append_drop]
  have hjoin : joinParts (rootStr rs)
      (joinSegs (List.replicate (rs.length - commonLen rs qs) ['.', '.'] ++
        qs.drop (commonLen rs qs))) = '/' :: joinSegs qs := by
    rw [joinParts_root_cons rs hrelne, normalize_root_join hr hrelne, hsplit, hnorm,
      if_neg (joinSegs_root_ne_nil (⟨hne, hv⟩ : validRoot qs)), if_neg hlast]
    simp
  have hstrip : stripLead ('/' :: joinSegs (List.replicate
      (rs.length - commonLen rs qs) ['.', '.'] ++ qs.drop (commonLen rs qs))) =
      joinSegs (List.replicate (rs.length - commonLen rs qs) ['.', '.'] ++
        qs.drop (commonLen rs qs)) := by
    simp [stripLead]
  rw [getSafePath_eq, hstrip, hjoin, if_pos (List.isPrefixOf_iff_prefix.mpr hpre)]

/-- The composite display operation of the service: resolve the user path,
    then relativize the result against the root. -/
def relOfSafe (root p : Chars) : Chars := getRelativePath root (getSafePath root p)

theorem map_repl_eq_self {l : Chars} (h : '\\' ∉ l) :
    l.map (fun c => if c = '\\' then '/' else c) = l := by
  induction l with
  | nil => rfl
  | cons c cs ih =>
    have hc : ¬ c = '\\' := fun he => h (he ▸ List.mem_cons_self c cs)
    simp only [List.map_cons, if_neg hc]
    rw [ih (fun hm => h (List.mem_cons_of_mem c hm))]

theorem not_bs_mem_map_repl (l : Chars) :
    '\\' ∉ l.map (fun c => if c = '\\' then '/' else c) := by
  intro hm
  rcases List.mem_map.mp hm with ⟨c, _, hc⟩
  by_cases h : c = '\\'
  · rw [if_pos h] at hc
    exact absurd hc (by decide)
  · rw [if_neg h] at hc
    exact h hc

theorem mem_joinSegs : ∀ (l : List Chars) (c : Char), c ∈ joinSegs l →
    c = '/' ∨ ∃ s ∈ l, c ∈ s := by
  intro l
  induction l with
  | nil =>
    intro c hc
    simp [joinSegs] at hc
  | cons s rest ih =>
    intro c hc
    cases rest with
    | nil => exact Or.inr ⟨s, List.mem_cons_self s [], hc⟩
    | cons t ts =>
      have hu : joinSegs (s :: t :: ts) = s ++ '/' :: joinSegs (t :: ts) := rfl
      rw [hu] at hc
      rcases List.mem_append.mp hc with h1 | h1
      · exact Or.inr ⟨s, List.mem_cons_self s _, h1⟩
      · rcases List.mem_cons.mp h1 with h2 | h2
        · exact Or.inl h2
        · rcases ih c h2 with h3 | ⟨u, hu2, hcu⟩
          · exact Or.inl h3
          · exact Or.inr ⟨u, List.mem_cons_of_mem s hu2, hcu⟩

theorem mem_of_mem_splitSlash : ∀ (cs s : Chars), s ∈ splitSlash cs →
    ∀ c ∈ s, c ∈ cs := by
  intro cs
  induction cs with
  | nil =>
    intro s hs c hc
    simp [splitSlash] at hs
    subst hs
    simp at hc
  | cons d ds ih =>
    intro s hs c hc
    have hunfold : splitSlash (d :: ds) =
        if d = '/' then [] :: splitSlash ds else consHead d (splitSlash ds) := rfl
    rw [hunfold] at hs
    by_cases hd : d = '/'
    · rw [if_pos hd] at hs
      rcases List.mem_cons.mp hs with h1 | h1
      · subst h1
        simp at hc
      · exact List.mem_cons_of_mem d (ih s h1 c hc)
    · rw [if_neg hd] at hs
      cases hsplit : splitSlash ds with
      | nil => exact absurd hsplit (splitSlash_ne_nil ds)
      | cons t ts =>
        rw [hsplit] at hs
        simp [consHead] at hs
        rcases hs with h1 | h1
        · subst h1
          rcases List.mem_cons.mp hc with h2 | h2
          · exact h2 ▸ List.mem_cons_self d ds
          · have ht : t ∈ splitSlash ds := by
              rw [hsplit]
              exact List.mem_cons_self t ts
            exact List.mem_cons_of_mem d (ih t ht c h2)
        · have hmem : s ∈ splitSlash ds := by
            rw [hsplit]
            exact List.mem_cons_of_mem t h1
          exact List.mem_cons_of_mem d (ih s hmem c hc)

theorem mem_stripLead {p : Chars} {c : Char} (h : c ∈ stripLead p) : c ∈ p := by
  unfold stripLead at h
  split at h
  · exact List.mem_of_mem_tail h
  · exact h

/-- C8 counterexample: with root `/srv/data` and input `a\` (a file name
    containing a backslash), the composite resolve-then-relativize gives
    `/a/`, but applying it again gives `/a` — the composition is not
    idempotent on inputs containing a backslash. -/
theorem relativize_resolve_cex :
    relOfSafe "/srv/data".data "a\\".data = "/a/".data ∧
    relOfSafe "/srv/data".data (relOfSafe "/srv/data".data "a\\".data) = "/a".data ∧
    "/a".data ≠ "/a/".data := by
  decide

/-- C8 amended: for every user path `p`, `relativize(root, resolve(root, p))`
    starts with `/` and contains no backslash; and for every `p` that
    contains no backslash character, the composition is idempotent under
    repeated application. -/
theorem relativize_resolve (rs : List Chars) (hr : validRoot rs)
    (hbs : ∀ s ∈ rs, '\\' ∉ s) (p : Chars) :
    (relOfSafe (rootStr rs) p).head? = some '/' ∧
    '\\' ∉ relOfSafe (rootStr rs) p ∧
    ('\\' ∉ p →
      relOfSafe (rootStr rs) (relOfSafe (rootStr rs) p) = relOfSafe (rootStr rs) p) := by
  obtain ⟨qs, tail, hq, htail, hqne, hqv, hqmem, hqpre⟩ := getSafePath_shape rs hr p
  refine ⟨rfl, ?_, ?_⟩
  · intro hm
    rcases List.mem_cons.mp hm with h1 | h1
    · exact absurd h1 (by decide)
    · exact not_bs_mem_map_repl _ h1
  · intro hp
    have hrelfree : '\\' ∉ pathRelative (rootStr rs) (getSafePath (rootStr rs) p) := by
      rw [hq, pathRelative_root_shape hr hqne hqv htail]
      split
      · simp
      · intro hm
        rcases mem_joinSegs _ _ hm with h1 | ⟨s, hs, hcs⟩
        · exact absurd h1 (by decide)
        · rcases List.mem_append.mp hs with h2 | h2
          · have he : s = ['.', '.'] := List.eq_of_mem_replicate h2
            subst he
            simp at hcs
          · have hsq : s ∈ qs := List.mem_of_mem_drop h2
            rcases hqmem s hsq with h3 | h3
            · exact hbs s h3 hcs
            · exact hp (mem_stripLead (mem_of_mem_splitSlash _ s h3 _ hcs))
    have hrel1 : relOfSafe (rootStr rs) p =
        '/' :: pathRelative (rootStr rs) (getSafePath (rootStr rs) p) := by
      show '/' :: (pathRelative (rootStr rs) (getSafePath (rootStr rs) p)).map
        (fun c => if c = '\\' then '/' else c) = _
      rw [map_repl_eq_self hrelfree]
    by_cases hcase : rs = qs
    · have hrelnil : pathRelative (rootStr rs) (getSafePath (rootStr rs) p) = [] := by
        rw [hq, pathRelative_root_shape hr hqne hqv htail, if_pos hcase]
      have hr1 : relOfSafe (rootStr rs) p = ['/'] := by
        rw [hrel1, hrelnil]
      rw [hr1]
      have hsafe2 : getSafePath (rootStr rs) ['/'] = rootStr rs := by
        have hs2 : stripLead ['/'] = [] := by decide
        rw [getSafePath_eq, hs2, joinParts_root_nil hr,
          if_pos (List.isPrefixOf_iff_prefix.mpr (List.prefix_refl _))]
      show getRelativePath (rootStr rs) (getSafePath (rootStr rs) ['/']) = ['/']
      rw [hsafe2]
      have h0 : rootStr rs = '/' :: (joinSegs rs ++ []) := by simp [rootStr]
      have hrel2 : pathRelative (rootStr rs) (rootStr rs) = [] := by
        nth_rewrite 2 [h0]
        rw [pathRelative_root_shape hr hr.1 hr.2 (Or.inl rfl), if_pos rfl]
      show '/' :: (pathRelative (rootStr rs) (rootStr rs)).map
        (fun c => if c = '\\' then '/' else c) = ['/']
      rw [hrel2]
      rfl
    · have hrelval : pathRelative (rootStr rs) (getSafePath (rootStr rs) p) =
          joinSegs (List.replicate (rs.length - commonLen rs qs) ['.', '.'] ++
            qs.drop (commonLen rs qs)) := by
        rw [hq, pathRelative_root_shape hr hqne hqv htail, if_neg hcase]
      have hr1 : relOfSafe (rootStr rs) p =
          '/' :: joinSegs (List.replicate (rs.length - commonLen rs qs) ['.', '.'] ++
            qs.drop (commonLen rs qs)) := by
        rw [hrel1, hrelval]
      rw [hr1]
      show getRelativePath (rootStr rs) (getSafePath (rootStr rs)
        ('/' :: joinSegs (List.replicate (rs.length - commonLen rs qs) ['.', '.'] ++
          qs.drop (commonLen rs qs)))) =
        '/' :: joinSegs (List.replicate (rs.length - commonLen rs qs) ['.', '.'] ++
          qs.drop (commonLen rs qs))
      rw [safePath_of_rel hr hqne hqv hqpre hcase]
      have h0 : ('/' :: joinSegs qs) = '/' :: (joinSegs qs ++ []) := by simp
      have hrel3 : pathRelative (rootStr rs) ('/' :: joinSegs qs) =
          joinSegs (List.replicate (rs.length - commonLen rs qs) ['.', '.'] ++
            qs.drop (commonLen rs qs)) := by
        rw [h0, pathRelative_root_shape hr hqne hqv (Or.inl rfl), if_neg hcase]
      show '/' :: (pathRelative (rootStr rs) ('/' :: joinSegs qs)).map
        (fun c => if c = '\\' then '/' else c) =
        '/' :: joinSegs (List.replicate (rs.length - commonLen rs qs) ['.', '.'] ++
          qs.drop (commonLen rs qs))
      rw [hrel3]
      have hfree2 : '\\' ∉ joinSegs (List.replicate (rs.length - commonLen rs qs)
          ['.', '.'] ++ qs.drop (commonLen rs qs)) := by
        rw [← hrelval]
        exact hrelfree
      rw [map_repl_eq_self hfree2]

/-- Witness for C8: the amended statement applied at a concrete root and a
    concrete backslash-free user path. -/
theorem relativize_resolve_w :
    '\\' ∉ relOfSafe (rootStr [['s', 'r', 'v'], ['d', 'a', 't', 'a']]) "docs".data ∧
    relOfSafe (rootStr [['s', 'r', 'v'], ['d', 'a', 't', 'a']])
        (relOfSafe (rootStr [['s', 'r', 'v'], ['d', 'a', 't', 'a']]) "docs".data) =
      relOfSafe (rootStr [['s', 'r', 'v'], ['d', 'a', 't', 'a']]) "docs".data := by
  have h := relativize_resolve [['s', 'r', 'v'], ['d', 'a', 't', 'a']] (by decide)
    (by decide) "docs".data
  exact ⟨h.2.1, h.2.2 (by decide)⟩

theorem find_filter_key (fs : Fs) (good : Chars → Bool) (q : Chars) :
    fsFind (fs.filter (fun e => good e.1)) q =
      if good q = true then fsFind fs q else none := by
  induction fs with
  | nil => simp [fsFind]
  | cons e fs ih =>
    obtain ⟨k, v⟩ := e
    rw [List.filter_cons]
    by_cases hk : good k = true
    · simp only [hk, if_true]
      by_cases hq : k = q
      · subst hq
        simp [fsFind, hk]
      · simp [fsFind, hq, ih]
    · simp only [hk]
      rw [if_neg (by simp [hk]), ih]
      by_cases hgq : good q = true
      · have hq : ¬ k = q := fun he => hk (he ▸ hgq)
        simp [fsFind, hgq, hq]
      · simp [hgq]

/-- C2 counterexample: in the Vercel variant (src/api/server.js) a successful
    save of `notes.txt` with content `hello` into an empty store, followed by
    a read of `notes.txt`, yields a backend error instead of the content —
    the save writes under `/tmp` while the read resolves under the document
    root. -/
theorem save_read_roundtrip_cex :
    (saveFileVercel [] (some "notes.txt") (some "hello")).2 = SaveResp.saved ∧
    fileContent "/srv/app".data (saveFileVercel [] (some "notes.txt") (some "hello")).1
      none (some "notes.txt") = ReadResp.backendError ∧
    ReadResp.backendError ≠ ReadResp.ok "hello".data := by
  decide

/-- C2 amended: the write-then-read round trip holds in the local variant
    (src/unnamed/part_000), where the save and the read resolve the same
    directory through `getSafePath` and join the same file name: saving
    content `C` to file `F` and then reading `F` with the same directory
    returns exactly `C`. -/
theorem save_read_roundtrip_local (root : Chars) (fs : Fs) (directory : Option String)
    (F C : String) (hF : F ≠ "") :
    (saveFileLocal root fs (some F) (some C) directory).2 = SaveResp.saved ∧
    fileContent root (saveFileLocal root fs (some F) (some C) directory).1 directory
      (some F) = ReadResp.ok C.data := by
  constructor
  · simp [saveFileLocal, jsFalsy, hF]
  · simp [saveFileLocal, fileContent, jsFalsy, hF, fsWrite, fsFind]

/-- Witness for C2: the round trip at a concrete store, file and content. -/
theorem save_read_roundtrip_local_w :
    (saveFileLocal "/srv/data".data [] (some "notes.txt") (some "hello") none).2 =
      SaveResp.saved ∧
    fileContent "/srv/data".data
      (saveFileLocal "/srv/data".data [] (some "notes.txt") (some "hello") none).1
      none (some "notes.txt") = ReadResp.ok "hello".data :=
  save_read_roundtrip_local "/srv/data".data [] none "notes.txt" "hello" (by decide)

/-- C7: the write operation client-errors, leaving the store untouched,
    exactly when the file name is missing (absent or empty, the JS falsiness
    check) or the content field is absent; a present-but-empty content string
    is accepted and the backend write proceeds. -/
theorem save_guard (fs : Fs) (file_name content : Option String) :
    ((saveFileVercel fs file_name content).2 = SaveResp.clientError ↔
      (file_name = none ∨ file_name = some "" ∨ content = none)) ∧
    ((saveFileVercel fs file_name content).2 = SaveResp.clientError →
      (saveFileVercel fs file_name content).1 = fs) ∧
    (∀ F, F ≠ "" → file_name = some F → content = some "" →
      (saveFileVercel fs file_name content).2 = SaveResp.saved ∧
      (saveFileVercel fs file_name content).1 =
        fsWrite fs (joinParts "/tmp/".data F.data) "".data) := by
  cases file_name with
  | none => simp [saveFileVercel, jsFalsy]
  | some F =>
    by_cases hF : F = ""
    · subst hF
      refine ⟨by simp [saveFileVercel, jsFalsy], by simp [saveFileVercel, jsFalsy], ?_⟩
      intro F hF2 hfn hcon
      exact absurd (Option.some.inj hfn).symm hF2
    · cases content with
      | none => simp [saveFileVercel, jsFalsy, hF]
      | some C =>
        constructor
        · simp [saveFileVercel, jsFalsy, hF]
        constructor
        · simp [saveFileVercel, jsFalsy, hF]
        · intro F2 hF2 hfn hcon
          cases hfn
          cases hcon
          simp [saveFileVercel, jsFalsy, hF]

/-- Witness for C7: an empty content string with a nonempty file name is
    accepted and written; a missing content field is a client error. -/
theorem save_guard_w :
    (saveFileVercel [] (some "a.txt") (some "")).2 = SaveResp.saved ∧
    ((saveFileVercel [] (some "a.txt") none).2 = SaveResp.clientError ↔
      ((some "a.txt" : Option String) = none ∨ (some "a.txt" : Option String) = some "" ∨
        (none : Option String) = none)) :=
  ⟨((save_guard [] (some "a.txt") (some "")).2.2 "a.txt" (by decide) rfl rfl).1,
    (save_guard [] (some "a.txt") none).1⟩

/-- C5: the delete operation on a resolved `/tmp` target removes a directory
    together with everything underneath it and nothing else, removes exactly
    the named file when the target is a file, and answers a nonexistent
    target with a caught backend error response, leaving the store
    unchanged. -/
theorem delete_behavior (fs : Fs) (name : String) (hname : name ≠ "") :
    (fsFind fs (joinParts "/tmp/".data name.data) = none →
      deleteVercel fs (some name) = (fs, DelResp.backendError)) ∧
    (fsFind fs (joinParts "/tmp/".data name.data) = some FsNode.dir →
      (deleteVercel fs (some name)).2 = DelResp.deletedFolder ∧
      (∀ q, (q = joinParts "/tmp/".data name.data ∨
          (joinParts "/tmp/".data name.data ++ ['/']) <+: q) →
        fsFind (deleteVercel fs (some name)).1 q = none) ∧
      (∀ q, ¬ (q = joinParts "/tmp/".data name.data ∨
          (joinParts "/tmp/".data name.data ++ ['/']) <+: q) →
        fsFind (deleteVercel fs (some name)).1 q = fsFind fs q)) ∧
    (∀ c, fsFind fs (joinParts "/tmp/".data name.data) = some (FsNode.file c) →
      (deleteVercel fs (some name)).2 = DelResp.deletedFile ∧
      fsFind (deleteVercel fs (some name)).1 (joinParts "/tmp/".data name.data) = none ∧
      (∀ q, q ≠ joinParts "/tmp/".data name.data →
        fsFind (deleteVercel fs (some name)).1 q = fsFind fs q)) := by
  have hguard : jsFalsy (some name) = false := by simp [jsFalsy, hname]
  refine ⟨?_, ?_, ?_⟩
  · intro h0
    simp [deleteVercel, hguard, h0]
  · intro h0
    have hd : deleteVercel fs (some name) =
        (fs.filter (fun e => outsideSubtree (joinParts "/tmp/".data name.data) e.1),
          DelResp.deletedFolder) := by
      simp [deleteVercel, hguard, h0]
    refine ⟨by rw [hd], ?_, ?_⟩
    · intro q hq
      rw [hd, find_filter_key]
      have hout : outsideSubtree (joinParts "/tmp/".data name.data) q = false := by
        simp [outsideSubtree, hq]
      simp [hout]
    · intro q hq
      rw [hd, find_filter_key]
      have hout : outsideSubtree (joinParts "/tmp/".data name.data) q = true := by
        simp [outsideSubtree]
        tauto
      simp [hout]
  · intro c h0
    have hd : deleteVercel fs (some name) =
        (fs.filter (fun e => !decide (e.1 = joinParts "/tmp/".data name.data)),
          DelResp.deletedFile) := by
      simp [deleteVercel, hguard, h0]
    have hff := find_filter_key fs
      (fun k => !decide (k = joinParts "/tmp/".data name.data))
    simp only [] at hff
    refine ⟨by rw [hd], ?_, ?_⟩
    · rw [hd]
      rw [hff (joinParts "/tmp/".data name.data)]
      simp
    · intro q hq
      rw [hd, hff q]
      simp [hq]

/-- Witness for C5: deleting a missing file from an empty store is a backend
    error response with the store unchanged (the spec's concrete scenario). -/
theorem delete_behavior_w :
    deleteVercel [] (some "missing.txt") = ([], DelResp.backendError) :=
  (delete_behavior [] "missing.txt" (by decide)).1 (by decide)

/-- C6 counterexample: in the local variant (src/unnamed/part_000) the
    download error callback attempts the error write even though response
    headers have already been sent. -/
theorem download_guard_cex :
    downloadCbLocal ⟨true, true⟩ = DlWrite.wroteError ∧
    DlWrite.wroteError ≠ DlWrite.noWrite := by
  decide

/-- C6 amended: in the Vercel variant (src/api/server.js) the error write is
    attempted only when headers have not been sent, and never once they have;
    in the local variant (src/unnamed/part_000) the error write is attempted
    unconditionally on a streaming error, even after headers were sent. -/
theorem download_guard (ctx : DlCtx) :
    (ctx.headersSent = true → downloadCbVercel ctx = DlWrite.noWrite) ∧
    (ctx.err = true → ctx.headersSent = false → downloadCbVercel ctx = DlWrite.wroteError) ∧
    (ctx.err = true → downloadCbLocal ctx = DlWrite.wroteError) := by
  obtain ⟨e, h⟩ := ctx
  cases e <;> cases h <;> decide

/-- Witness for C6: the amended behavior at the concrete callback states. -/
theorem download_guard_w :
    downloadCbVercel ⟨true, true⟩ = DlWrite.noWrite ∧
    downloadCbVercel ⟨true, false⟩ = DlWrite.wroteError ∧
    downloadCbLocal ⟨true, false⟩ = DlWrite.wroteError :=
  ⟨(download_guard ⟨true, true⟩).1 rfl, (download_guard ⟨true, false⟩).2.1 rfl rfl,
    (download_guard ⟨true, false⟩).2.2 rfl⟩

/-- C4: in the remote-repository variant, the read operation returns the
    stored content fingerprint; the write and delete operations both return a
    client error with the repository untouched when the fingerprint is
    absent, and otherwise hand the caller's fingerprint to the backend, which
    rejects a stale fingerprint (and accepts the current one). -/
theorem gh_fingerprint_protocol (repo : Repo) :
    (∀ F c s, F ≠ "" → repoFind repo F = some (c, s) → c ≠ "" →
      fileContentGh repo (some F) = GhReadResp.ok c s) ∧
    (∀ fn c, saveFileGh repo fn c none = (repo, GhSaveResp.clientError)) ∧
    (∀ f, deleteGh repo f none = (repo, GhDelResp.clientError)) ∧
    (∀ F C s c0 cur, F ≠ "" → s ≠ "" → repoFind repo F = some (c0, cur) → s ≠ cur →
      saveFileGh repo (some F) (some C) (some s) = (repo, GhSaveResp.backendError)) ∧
    (∀ F s c0 cur, F ≠ "" → s ≠ "" → repoFind repo F = some (c0, cur) → s ≠ cur →
      deleteGh repo (some F) (some s) = (repo, GhDelResp.backendError)) ∧
    (∀ F C c0 cur, F ≠ "" → cur ≠ "" → repoFind repo F = some (c0, cur) →
      (saveFileGh repo (some F) (some C) (some cur)).2 = GhSaveResp.saved (mkSha C)) := by
  refine ⟨?_, ?_, ?_, ?_, ?_, ?_⟩
  · intro F c s hF hfind hc
    simp [fileContentGh, jsFalsy, hF, hfind, hc]
  · intro fn c
    simp [saveFileGh, jsFalsy]
  · intro f
    simp [deleteGh, jsFalsy]
  · intro F C s c0 cur hF hs hfind hstale
    simp [saveFileGh, jsFalsy, hF, hs, ghPut, hfind, hstale]
  · intro F s c0 cur hF hs hfind hstale
    simp [deleteGh, jsFalsy, hF, hs, ghDelete, hfind, hstale]
  · intro F C c0 cur hF hcur hfind
    simp [saveFileGh, jsFalsy, hF, hcur, ghPut, hfind]

/-- Witness for C4: the protocol at a concrete one-file repository — the
    read returns the fingerprint, a save without a fingerprint is a client
    error, and a save with a stale fingerprint is rejected by the backend. -/
theorem gh_fingerprint_protocol_w :
    fileContentGh [("f.txt", "hello", "s1")] (some "f.txt") =
      GhReadResp.ok "hello" "s1" ∧
    saveFileGh [("f.txt", "hello", "s1")] (some "f.txt") (some "x") none =
      ([("f.txt", "hello", "s1")], GhSaveResp.clientError) ∧
    saveFileGh [("f.txt", "hello", "s1")] (some "f.txt") (some "x") (some "stale") =
      ([("f.txt", "hello", "s1")], GhSaveResp.backendError) := by
  have h := gh_fingerprint_protocol [("f.txt", "hello", "s1")]
  exact ⟨h.1 "f.txt" "hello" "s1" (by decide) (by decide) (by decide),
    h.2.1 (some "f.txt") (some "x"),
    h.2.2.2.1 "f.txt" "x" "stale" "hello" "s1" (by decide) (by decide) (by decide)
      (by decide)⟩

end EdiosFM
